import Mathlib

/-!
Verification of the distributed Jacobi solver in challenge_3 (Solver.cpp).

The solver distributes an n x n square mesh (row-major, n columns) over
MPI ranks, iterates a relaxation kernel, exchanges halo rows each round,
and gathers the interior rows back at rank 0.  The relaxation kernel
(class Mesh: update_seq, update_par, get_error, get_mesh, set_mesh,
write, get_size) is an external collaborator and is abstracted by
oracle parameters; everything else below is translated directly from
Solver.cpp.

Machine integers: the C++ code uses size_t / int arithmetic.  All index
arithmetic that the theorems below touch stays far below 2^64, so we
model it with Nat; C++ unsigned wrap-around on subtraction corresponds
to Nat truncated subtraction only at 0 - 1, and every theorem carries
hypotheses that keep the source expressions away from that point (the
counterexamples below do not rely on truncated subtraction).
-/

namespace Challenge3

/-- Solver::initial_communication line 215:
size_t expected_size = (rank == 0 or rank == size - 1) ? n*n/size + n : n*n/size + 2*n; -/
def expected_size (n size rank : Nat) : Nat :=
  if rank = 0 ∨ rank = size - 1 then n * n / size + n else n * n / size + 2 * n

/-- Element count the coordinator (rank 0) sends to a given rank during the
initial scatter.  Solver::initial_communication lines 224 and 228: the send
to rank size-1 has count expected_size (computed at rank 0), the sends to
ranks 1..size-2 have count expected_size + n. -/
def sentCount (n size rank : Nat) : Nat :=
  if rank = size - 1 then expected_size n size 0 else expected_size n size 0 + n

/-- Start element of the slice of the initial mesh that rank 0 sends to a
rank ≥ 1.  Solver::initial_communication lines 224 and 228:
initial_mesh[(proc*n/size - 1)*n], with proc = size-1 for the last rank. -/
def sendStart (n size proc : Nat) : Nat :=
  (proc * n / size - 1) * n

/-- First element of a rank's interior (non-halo) range in the global
element index space.  Rank 0 has no leading halo and starts at 0; every
other rank's buffer starts at sendStart and its first n elements are the
leading halo row. -/
def interiorStart (n size rank : Nat) : Nat :=
  if rank = 0 then 0 else sendStart n size rank + n

/-- Element count of a rank's interior range: the buffer size minus its
halo rows, which is n*n/size for every rank (expected_size minus n for the
boundary ranks, minus 2*n for interior ranks). -/
def interiorLen (n size : Nat) : Nat := n * n / size

/-- Global element j lies in the interior range owned by the given rank. -/
def ownsElt (n size rank j : Nat) : Prop :=
  interiorStart n size rank ≤ j ∧ j < interiorStart n size rank + interiorLen n size

instance (n size rank j : Nat) : Decidable (ownsElt n size rank j) := by
  unfold ownsElt; infer_instance

/-- One MPI_Sendrecv call: peer rank, element offset of the sent row
block, element offset receiving the peer's row block (block length n). -/
structure Exchange where
  peer : Nat
  sendOff : Nat
  recvOff : Nat
deriving DecidableEq

/-- Solver constructor line 72: send_offset_1 = n. -/
def send_offset_1 (n : Nat) : Nat := n

/-- Solver constructor line 73: recv_offset_1 = 0. -/
def recv_offset_1 : Nat := 0

/-- Solver constructor line 75: send_offset_2 = mesh.size() - 2*n. -/
def send_offset_2 (L n : Nat) : Nat := L - 2 * n

/-- Solver constructor line 76: recv_offset_2 = mesh.size() - n. -/
def recv_offset_2 (L n : Nat) : Nat := L - n

/-- Solver::communicate_boundary lines 186-205 as the ordered list of
MPI_Sendrecv calls the given rank performs, where L = mesh.size().  Each
list entry is one combined send-and-receive, never two separate sends. -/
def communicate_boundary (L n size rank : Nat) : List Exchange :=
  if rank = 0 then [⟨1, send_offset_2 L n, recv_offset_2 L n⟩]
  else if rank = size - 1 then [⟨rank - 1, send_offset_1 n, recv_offset_1⟩]
  else [⟨rank - 1, send_offset_1 n, recv_offset_1⟩,
        ⟨rank + 1, send_offset_2 L n, recv_offset_2 L n⟩]

/-- The exchange pattern in the words of the claim, over whole rows of a
rows x n buffer: rank 0 talks only to rank 1, sending its last interior
row (row rows-2) and receiving into its trailing halo slot (row rows-1);
rank size-1 talks only to rank size-2, sending its first interior row
(row 1) and receiving into its leading halo slot (row 0); interior ranks
do the rank-1 exchange first, then the rank+1 exchange. -/
def exchange_claim (rows n size rank : Nat) : List Exchange :=
  if rank = 0 then [⟨1, (rows - 2) * n, (rows - 1) * n⟩]
  else if rank = size - 1 then [⟨size - 2, 1 * n, 0 * n⟩]
  else [⟨rank - 1, 1 * n, 0 * n⟩, ⟨rank + 1, (rows - 2) * n, (rows - 1) * n⟩]

/-- The slice of the flattened initial mesh that ends up in a rank's
local buffer after the initial scatter (Solver::initial_communication):
rank 0 keeps the first expected_size elements (lines 220-221, with
expected_size computed at rank 0); every other rank receives the
sentCount elements starting at sendStart (lines 224 and 228). -/
def scatterSlice {α : Type} (g : List α) (n size rank : Nat) : List α :=
  if rank = 0 then g.take (expected_size n size 0)
  else (g.drop (sendStart n size rank)).take (sentCount n size rank)

/-- The chunk a rank contributes to MPI_Gather in
Solver::final_communication (lines 246-255), from its local buffer m:
rank 0 contributes mesh.size()-n elements from offset 0; rank size-1
contributes mesh.size()-n elements from offset n; interior ranks first
resize the buffer to mesh.size()-n (dropping the trailing halo row) and
then contribute the resized mesh.size()-n elements from offset n. -/
def contribution {α : Type} (m : List α) (n size rank : Nat) : List α :=
  if rank = 0 then m.take (m.length - n)
  else if rank = size - 1 then (m.drop n).take (m.length - n)
  else
    (((m.take (m.length - n)).drop n).take ((m.take (m.length - n)).length - n))

/-- The grid rank 0 assembles with MPI_Gather: the per-rank contributions
of the scattered buffers, concatenated in rank order. -/
def gathered {α : Type} (g : List α) (n size : Nat) : List α :=
  (List.range size).flatMap fun r => contribution (scatterSlice g n size r) n size r

/-- Output file name of the distributed run,
Solver::final_communication line 262:
vtk_files/approx_sol-size-rows.vtk with rows = last_mesh.get_size().first. -/
def mpiFilename (size rows : Nat) : String :=
  "vtk_files/approx_sol-" ++ toString size ++ "-" ++ toString rows ++ ".vtk"

/-- Output file name of the sequential and thread-parallel runs
(lines 143 and 182): vtk_files/approx_sol-1-rows.vtk. -/
def seqFilename (rows : Nat) : String :=
  "vtk_files/approx_sol-1-" ++ toString rows ++ ".vtk"

/-- Console and file outputs of a solver run.  The Iter line (lines 137 /
176) reports only the iteration counter and wall-clock timings; the
timing values are measurements and are abstracted away. -/
inductive Event where
  | iterReport (iter : Nat) : Event
  | persist (filename : String) : Event
deriving DecidableEq

/-- Result of the sequential / thread-parallel loop: number of update
sweeps performed, the iteration counter at exit, the emitted outputs, and
whether the loop has exited (false only when the fuel ran out with the
exit condition still false, i.e. the loop would still be running). -/
structure RelaxResult where
  sweeps : Nat
  lastIter : Nat
  events : List Event
  exited : Bool
deriving DecidableEq

/-- The loop of Solver::solution_finder_sequential (lines 120-144) and of
Solver::solution_finder_parallel (lines 159-183), which differ only in
the kernel call (update_seq vs update_par), fuel-indexed.  err i
abstracts mesh_obj.get_error() < c.tolerance after the sweep of the round
with counter i (the kernel is external); rows is
mesh_obj.get_size().first.  Each round performs one update sweep, sets
exit := err i or i = n_max - 1, prints the Iter line when exiting, and
after the loop writes vtk_files/approx_sol-1-rows.vtk.  n_max and the
tolerance come from the conditions struct in a header that is not part
of the sources; they are modelled as parameters, per the spec run-wide
constants identical on every worker. -/
def relaxGo (nMax : Nat) (err : Nat → Bool) (rows : Nat) :
    Nat → Nat → Nat → RelaxResult
  | 0, i, sweeps => ⟨sweeps, i, [], false⟩
  | fuel + 1, i, sweeps =>
      if err i || decide (i = nMax - 1) then
        ⟨sweeps + 1, i, [Event.iterReport i, Event.persist (seqFilename rows)], true⟩
      else relaxGo nMax err rows fuel (i + 1) (sweeps + 1)

/-- The sequential / thread-parallel loop started as in the source:
i = 1, no sweeps yet; fuel n_max always suffices (see the termination
theorem). -/
def relaxRun (nMax : Nat) (err : Nat → Bool) (rows : Nat) : RelaxResult :=
  relaxGo nMax err rows nMax 1 0

/-- State of Solver::solution_finder_mpi's loop (lines 277-313) for all
ranks in lock step.  The iteration counter i and done (the variable
exit) are identical on every rank because every rank runs the same
control flow on the same all-reduce result; exitLocal, updates and the
mesh buffers are per rank.  kernelMesh r is rank r's Mesh object state
(mesh_obj); solverMesh r is rank r's std::vector mesh member.  updates,
reduces, exchanges and setMeshes count the calls to update_par,
MPI_Allreduce, communicate_boundary and set_mesh. -/
structure MpiState (α : Type) where
  i : Nat
  exitLocal : Nat → Bool
  updates : Nat → Nat
  reduces : Nat
  exchanges : Nat
  setMeshes : Nat
  done : Bool
  kernelMesh : Nat → α
  solverMesh : Nat → α

/-- One execution of the loop body of solution_finder_mpi by all ranks.
err r i abstracts rank r's get_error() < tolerance after its sweep in
the round with counter i; upd r i abstracts the in-place update_par
sweep; ex t ms r abstracts the buffer communicate_boundary leaves in
rank r's mesh member in round t when the freshly copied buffers of all
ranks are ms (every rank re-copies mesh = get_mesh() right before the
exchange, lines 303-305, so only the current round's kernel meshes feed
it).  Body order as in the source: conditional sweep and exit_local
check; all-reduce of exit_local with logical and; get_mesh copy;
communicate_boundary; if the reduce said continue, set_mesh and ++i. -/
def nextExitLocal {α : Type} (nMax : Nat) (err : Nat → Nat → Bool)
    (s : MpiState α) : Nat → Bool :=
  fun r => if s.exitLocal r then true else err r s.i || decide (s.i = nMax - 1)

/-- The all-reduce result of this round: logical and of every rank's new
exit_local (line 301). -/
def roundDone {α : Type} (size nMax : Nat) (err : Nat → Nat → Bool)
    (s : MpiState α) : Bool :=
  (List.range size).all (nextExitLocal nMax err s)

/-- Every rank's kernel mesh after the conditional sweep of this round
(line 286-290: a rank sweeps only while its exit_local is unset). -/
def sweptMesh {α : Type} (upd : Nat → Nat → α → α) (s : MpiState α) :
    Nat → α :=
  fun r => if s.exitLocal r then s.kernelMesh r else upd r s.i (s.kernelMesh r)

def mpiRound {α : Type} (size nMax : Nat) (err : Nat → Nat → Bool)
    (upd : Nat → Nat → α → α) (ex : Nat → (Nat → α) → Nat → α)
    (s : MpiState α) : MpiState α :=
  { i := if roundDone size nMax err s then s.i else s.i + 1
    exitLocal := nextExitLocal nMax err s
    updates := fun r => if s.exitLocal r then s.updates r else s.updates r + 1
    reduces := s.reduces + 1
    exchanges := s.exchanges + 1
    setMeshes := if roundDone size nMax err s then s.setMeshes else s.setMeshes + 1
    done := roundDone size nMax err s
    kernelMesh := fun r =>
      if roundDone size nMax err s then sweptMesh upd s r
      else ex s.reduces (sweptMesh upd s) r
    solverMesh := fun r => ex s.reduces (sweptMesh upd s) r }

/-- The do-while loop: keep executing rounds while the all-reduced exit
flag is false, fuel-indexed. -/
def mpiGo {α : Type} (size nMax : Nat) (err : Nat → Nat → Bool)
    (upd : Nat → Nat → α → α) (ex : Nat → (Nat → α) → Nat → α) :
    Nat → MpiState α → MpiState α
  | 0, s => s
  | fuel + 1, s =>
      if s.done then s
      else mpiGo size nMax err upd ex fuel (mpiRound size nMax err upd ex s)

/-- Loop entry state: i = 1, exit_local = 0 everywhere, no calls yet,
every rank's kernel holds its scattered buffer m0 r. -/
def mpiInit {α : Type} (m0 : Nat → α) : MpiState α :=
  ⟨1, fun _ => false, fun _ => 0, 0, 0, 0, false, m0, m0⟩

/-- After the loop, line 324 re-copies mesh = mesh_obj.get_mesh() before
final_communication, so the buffer a rank hands to the gather is its
kernel mesh, not the solver buffer holding the last exchanged halos. -/
def gatherInput {α : Type} (s : MpiState α) (r : Nat) : α := s.kernelMesh r

/-- A concrete mid-run state used to instantiate theorems about the
distributed loop: counter 2, rank 0 already locally done after one
sweep, rank 1 still running, one round executed so far. -/
def c5state : MpiState Nat :=
  ⟨2, fun r => decide (r = 0), fun _ => 1, 1, 1, 1, false,
    fun _ => 0, fun _ => 0⟩

/-- Invariant of the distributed loop: the shared counter never passes
n_max - 1 (the cap disjunct fires there), and each rank has performed at
most one sweep per counter value (strictly below i while running, at
most i once the loop is done). -/
def MpiInv {α : Type} (nMax : Nat) (s : MpiState α) : Prop :=
  s.i ≤ nMax - 1 ∧
    ∀ r, if s.done = true then s.updates r ≤ s.i else s.updates r < s.i

/-- The control fields of two mpi states agree (everything except the
mesh buffers); the controls never read the buffers, because the error
check goes through the abstract kernel oracle. -/
def CtrlEq {α β : Type} (s1 : MpiState α) (s2 : MpiState β) : Prop :=
  s1.i = s2.i ∧ s1.exitLocal = s2.exitLocal ∧ s1.updates = s2.updates ∧
  s1.reduces = s2.reduces ∧ s1.exchanges = s2.exchanges ∧
  s1.setMeshes = s2.setMeshes ∧ s1.done = s2.done

/- ------------------------------------------------------------------ -/
/- Theorems.                                                           -/
/- ------------------------------------------------------------------ -/

/-- C2: the coordinator's per-rank scatter send count equals that rank's
locally computed expected receive count, for every rank that posts a
receive (ranks 1..size-1), so no scatter message has a mismatched length. -/
theorem scatter_counts_match (n size rank : Nat) (h1 : 1 ≤ rank)
    (_h2 : rank < size) : sentCount n size rank = expected_size n size rank := by
  unfold sentCount expected_size
  by_cases hlast : rank = size - 1
  · simp [hlast]
  · have hr0 : rank ≠ 0 := by omega
    simp [hlast, hr0]
    omega

/-- Witness for scatter_counts_match at n = 4, size = 3, rank = 1. -/
theorem scatter_counts_match_witness :
    sentCount 4 3 1 = expected_size 4 3 1 :=
  scatter_counts_match 4 3 1 (by decide) (by decide)

/-- C1 counterexample: with n = 3 columns (the code's partition assumes a
square 3x3 grid) and size = 2 workers, the interior ranges are the element
ranges [0,4) and [3,7): element 8 (in row 2) belongs to no worker and
element 3 belongs to both, so the interior ranges do not partition the
grid, refuting the claim for arbitrary size and row count. -/
theorem partition_not_exact_cex :
    (¬ ∃ k, k < 2 ∧ ownsElt 3 2 k 8) ∧ ownsElt 3 2 0 3 ∧ ownsElt 3 2 1 3 := by
  refine ⟨?_, by decide, by decide⟩
  rintro ⟨k, hk, h⟩
  interval_cases k <;> revert h <;> decide

/-- Under size ∣ n the truncated subtraction in sendStart does not
underflow and each rank's interior range starts at rank * q * n where
q = n / size rows per rank. -/
theorem interiorStart_eq (n size rank q : Nat) (hs : 1 ≤ size)
    (hq : n = size * q) : interiorStart n size rank = rank * q * n := by
  unfold interiorStart sendStart
  by_cases h0 : rank = 0
  · simp [h0]
  · have h1 : rank * n = size * (rank * q) := by rw [hq]; ring
    have hdiv : rank * n / size = rank * q := by
      rw [h1, Nat.mul_div_cancel_left _ (by omega : 0 < size)]
    simp only [h0, if_false, hdiv]
    rcases Nat.eq_zero_or_pos (rank * q) with h | h
    · have hn : n = 0 := by
        have hq0 : q = 0 := by
          rcases Nat.mul_eq_zero.mp h with h' | h'
          · exact absurd h' h0
          · exact h'
        rw [hq, hq0, Nat.mul_zero]
      simp [h, hn]
    · calc (rank * q - 1) * n + n = (rank * q - 1 + 1) * n := by rw [Nat.succ_mul]
        _ = rank * q * n := by rw [Nat.sub_add_cancel h]

/-- Under size ∣ n every rank's interior length is q * n elements, i.e.
q = n / size whole rows. -/
theorem interiorLen_eq (n size q : Nat) (hs : 1 ≤ size) (hq : n = size * q) :
    interiorLen n size = q * n := by
  unfold interiorLen
  have h1 : n * n = size * (q * n) := by rw [hq]; ring
  rw [h1, Nat.mul_div_cancel_left _ (by omega : 0 < size)]

/-- C1 amended: for the square n x n grids the code partitions (the
partition logic has no independent row count) and for worker counts
dividing n, the per-worker interior element ranges partition [0, n*n)
exactly: every element is owned by exactly one rank, and every owned
element lies inside the grid. -/
theorem partition_exact_of_dvd (n size : Nat) (hs : 1 ≤ size) (hd : size ∣ n) :
    (∀ j, j < n * n → ∃! k, k < size ∧ ownsElt n size k j) ∧
    (∀ k, k < size → ∀ j, ownsElt n size k j → j < n * n) := by
  obtain ⟨q, hq⟩ := hd
  have hstart : ∀ k, interiorStart n size k = k * (q * n) := by
    intro k; rw [interiorStart_eq n size k q hs hq]; ring
  have hlen : interiorLen n size = q * n := interiorLen_eq n size q hs hq
  have hnn : n * n = size * (q * n) := by rw [hq]; ring
  have howns : ∀ k j, ownsElt n size k j ↔
      k * (q * n) ≤ j ∧ j < (k + 1) * (q * n) := by
    intro k j
    unfold ownsElt
    rw [hstart, hlen, Nat.succ_mul]
  rcases Nat.eq_zero_or_pos (q * n) with hB | hBpos
  · constructor
    · intro j hj
      rw [hnn, hB, Nat.mul_zero] at hj
      omega
    · intro k hk j hj
      rw [howns, hB] at hj
      omega
  · constructor
    · intro j hj
      rw [hnn] at hj
      refine ⟨j / (q * n), ⟨?_, ?_⟩, ?_⟩
      · exact Nat.div_lt_of_lt_mul (by rw [Nat.mul_comm]; exact hj)
      · rw [howns]
        refine ⟨Nat.div_mul_le_self j (q * n), ?_⟩
        have hmod := Nat.div_add_mod j (q * n)
        have hm : j % (q * n) < q * n := Nat.mod_lt _ hBpos
        rw [Nat.mul_comm (q * n) (j / (q * n))] at hmod
        rw [Nat.succ_mul]
        omega
      · rintro k ⟨hk, hko⟩
        rw [howns] at hko
        exact (Nat.div_eq_of_lt_le hko.1 hko.2).symm
    · intro k hk j hj
      rw [howns] at hj
      have : (k + 1) * (q * n) ≤ size * (q * n) :=
        Nat.mul_le_mul_right _ (by omega)
      rw [hnn]
      omega

/-- Witness for partition_exact_of_dvd at n = 4, size = 2. -/
theorem partition_exact_of_dvd_witness :
    (∀ j, j < 4 * 4 → ∃! k, k < 2 ∧ ownsElt 4 2 k j) ∧
    (∀ k, k < 2 → ∀ j, ownsElt 4 2 k j → j < 4 * 4) :=
  partition_exact_of_dvd 4 2 (by decide) ⟨2, rfl⟩

/-- C6: for every local buffer of rows ≥ 2 whole rows and every rank in a
group of size ≥ 2, the code's list of combined send-and-receive calls is
exactly the pattern the claim describes. -/
theorem communicate_boundary_matches_claim (rows n size rank : Nat)
    (_hrows : 2 ≤ rows) (_hsize : 2 ≤ size) (_hrank : rank < size) :
    communicate_boundary (rows * n) n size rank =
      exchange_claim rows n size rank := by
  unfold communicate_boundary exchange_claim
  unfold send_offset_1 recv_offset_1 send_offset_2 recv_offset_2
  have e2 : rows * n - 2 * n = (rows - 2) * n := (Nat.sub_mul rows 2 n).symm
  have e1 : rows * n - n = (rows - 1) * n := by
    rw [Nat.sub_mul, Nat.one_mul]
  by_cases h0 : rank = 0
  · simp [h0, e1, e2]
  · by_cases hl : rank = size - 1
    · subst hl
      have hss : size - 1 - 1 = size - 2 := by omega
      simp [h0, hss, Nat.one_mul]
    · simp [h0, hl, e1, e2, Nat.one_mul]

/-- Witness for communicate_boundary_matches_claim with a 4-row buffer of
width 2, size = 3, interior rank 1. -/
theorem communicate_boundary_matches_claim_witness :
    communicate_boundary (4 * 2) 2 3 1 = exchange_claim 4 2 3 1 :=
  communicate_boundary_matches_claim 4 2 3 1 (by decide) (by decide) (by decide)

/-- C4 (code bug): at size = 1 on a 3 x 3 grid the distributed path is
broken.  Rank 0 computes expected_size = n*n/size + n = 12, exceeding the
9 elements of the initial grid, so the copy loop in initial_communication
(line 220) reads past its end; and communicate_boundary has rank 0
exchange with rank 1, which does not exist in a group of size 1.  The
size = 1 distributed run therefore cannot reproduce the sequential
result, contradicting the claim. -/
theorem size_one_distributed_broken :
    expected_size 3 1 0 = 12 ∧ 3 * 3 < expected_size 3 1 0 ∧
    (communicate_boundary (expected_size 3 1 0) 3 1 0).map Exchange.peer = [1] ∧
    ∀ p ∈ (communicate_boundary (expected_size 3 1 0) 3 1 0).map Exchange.peer,
      ¬ p < 1 := by
  decide

/-- flatMap respects pointwise equality of the chunk functions on the
list's members. -/
theorem flatMap_congr_mem {α β : Type} (l : List α) (f f' : α → List β)
    (h : ∀ x ∈ l, f x = f' x) : l.flatMap f = l.flatMap f' := by
  induction l with
  | nil => rfl
  | cons x xs ih =>
      rw [List.flatMap_cons, List.flatMap_cons, h x (by simp),
        ih fun y hy => h y (by simp [hy])]

/-- Concatenating the k consecutive B-element chunks of a list of length
k * B reproduces the list. -/
theorem flatMap_range_chunks {α : Type} (B : Nat) :
    ∀ (k : Nat) (g : List α), g.length = k * B →
      ((List.range k).flatMap fun r => (g.drop (r * B)).take B) = g := by
  intro k
  induction k with
  | zero =>
      intro g hg
      rw [Nat.zero_mul] at hg
      rw [List.range_zero, List.flatMap_nil]
      exact (List.length_eq_zero.mp hg).symm
  | succ k ih =>
      intro g hg
      rw [List.range_succ_eq_map, List.flatMap_cons, List.flatMap_map]
      have hfun : (fun a => (g.drop (Nat.succ a * B)).take B)
          = fun a => ((g.drop B).drop (a * B)).take B := by
        funext a
        rw [List.drop_drop]
        rw [Nat.succ_mul, Nat.add_comm]
      have hlen : (g.drop B).length = k * B := by
        rw [List.length_drop, hg, Nat.succ_mul]
        omega
      rw [Nat.zero_mul, List.drop_zero, hfun, ih (g.drop B) hlen]
      exact List.take_append_drop B g

/-- Under size ∣ n (with q = n / size rows per rank), the gather chunk a
rank contributes from its scattered buffer is exactly its interior slice
of the global grid: the q * n elements starting at rank * q * n. -/
theorem contribution_eq {α : Type} (n size q r : Nat) (hs : 2 ≤ size)
    (hq : n = size * q) (hqpos : 1 ≤ q) (hr : r < size) (g : List α)
    (hg : g.length = n * n) :
    contribution (scatterSlice g n size r) n size r
      = (g.drop (r * (q * n))).take (q * n) := by
  have hnpos : 2 ≤ n := by
    rw [hq]
    calc 2 = 2 * 1 := by omega
      _ ≤ size * q := Nat.mul_le_mul hs hqpos
  have hnn : n * n / size = q * n := by
    have h1 : n * n = size * (q * n) := by rw [hq]; ring
    rw [h1, Nat.mul_div_cancel_left _ (by omega : 0 < size)]
  have hE0 : expected_size n size 0 = q * n + n := by
    unfold expected_size
    simp [hnn]
  have hglen : g.length = size * (q * n) := by rw [hg, hq]; ring
  have hBn : n ≤ q * n := Nat.le_mul_of_pos_left n hqpos
  by_cases h0 : r = 0
  · subst h0
    simp only [scatterSlice, contribution, reduceIte, hE0]
    have hlen : (g.take (q * n + n)).length = q * n + n := by
      rw [List.length_take, hglen]
      have h2 : 2 * (q * n) ≤ size * (q * n) := Nat.mul_le_mul_right _ hs
      omega
    rw [hlen, List.take_take, Nat.zero_mul, List.drop_zero]
    congr 1
    omega
  · -- start offset and its bounds
    have hdiv : r * n / size = r * q := by
      have h1 : r * n = size * (r * q) := by rw [hq]; ring
      rw [h1, Nat.mul_div_cancel_left _ (by omega : 0 < size)]
    have hrq : 1 ≤ r * q := by
      have : 1 * 1 ≤ r * q := Nat.mul_le_mul (by omega) hqpos
      omega
    have hstart : sendStart n size r = r * (q * n) - n := by
      unfold sendStart
      rw [hdiv, Nat.sub_mul, Nat.one_mul, Nat.mul_assoc]
    have hA1 : n ≤ r * (q * n) := by
      calc n ≤ q * n := hBn
        _ = 1 * (q * n) := (Nat.one_mul _).symm
        _ ≤ r * (q * n) := Nat.mul_le_mul_right _ (by omega)
    have hA2 : r * (q * n) + q * n ≤ size * (q * n) := by
      have h1 : (r + 1) * (q * n) ≤ size * (q * n) :=
        Nat.mul_le_mul_right _ (by omega)
      rw [Nat.succ_mul] at h1
      exact h1
    have hdropped : (g.drop (sendStart n size r)).length
        = size * (q * n) - (r * (q * n) - n) := by
      rw [List.length_drop, hglen, hstart]
    by_cases hl : r = size - 1
    · -- last rank: buffer is exactly q*n + n elements
      have hAeq : r * (q * n) + q * n = size * (q * n) := by
        have h1 : (r + 1) * (q * n) = size * (q * n) := by
          congr 1
          omega
        rw [Nat.succ_mul] at h1
        exact h1
      simp only [scatterSlice, contribution, sentCount, if_neg h0, if_pos hl, hE0]
      have hlen : ((g.drop (sendStart n size r)).take (q * n + n)).length
          = q * n + n := by
        rw [List.length_take, hdropped]
        omega
      rw [hlen, List.drop_take, List.drop_drop, hstart]
      have hidx : r * (q * n) - n + n = r * (q * n) := by omega
      rw [hidx, List.take_take]
      congr 1
      omega
    · -- interior rank: buffer is q*n + 2n elements, trailing row dropped
      simp only [scatterSlice, contribution, sentCount, if_neg h0, if_neg hl, hE0]
      have hlen : ((g.drop (sendStart n size r)).take (q * n + n + n)).length
          = q * n + n + n := by
        rw [List.length_take, hdropped]
        have hr1 : r + 1 ≤ size - 1 := by omega
        have h2 : (r + 1 + 1) * (q * n) ≤ size * (q * n) :=
          Nat.mul_le_mul_right _ (by omega)
        rw [Nat.succ_mul, Nat.succ_mul] at h2
        omega
      rw [hlen]
      have he : q * n + n + n - n = q * n + n := by omega
      rw [he, List.take_take]
      have hmin : (q * n + n) ⊓ (q * n + n + n) = q * n + n := by omega
      rw [hmin]
      have hlen2 : ((g.drop (sendStart n size r)).take (q * n + n)).length
          = q * n + n := by
        rw [List.length_take, hdropped]
        omega
      rw [hlen2, List.drop_take, List.drop_drop, hstart]
      have hidx : r * (q * n) - n + n = r * (q * n) := by omega
      rw [hidx]
      have he2 : q * n + n - n = q * n := by omega
      rw [he2, List.take_take]
      congr 1
      omega

/-- C7 counterexample: with the square 3 x 3 grid (n = 3) and size = 2,
the gather of the scattered (unchanged) buffers assembles
[0,1,2,3] ++ [3,4,5,6] from the grid 0..8: element 3 appears twice,
element 8 is lost, and only 8 of the 9 elements arrive, refuting the
no-duplicated-no-missing-rows part of the claim. -/
theorem gather_loses_rows_cex :
    (gathered (List.range 9) 3 2).length = 8 ∧
    List.count 3 (gathered (List.range 9) 3 2) = 2 ∧
    ¬ (8 : Nat) ∈ gathered (List.range 9) 3 2 ∧
    gathered (List.range 9) 3 2 ≠ List.range 9 := by
  decide

/-- C7 amended: every rank contributes exactly its halo-free interior
chunk and all contributions have the same element count n*n/size; when
additionally size divides n, the rank-order assembly at the coordinator
reproduces the grid exactly, with no duplicated and no missing rows. -/
theorem gather_exact_of_dvd {α : Type} (n size : Nat) (hs : 2 ≤ size)
    (hd : size ∣ n) (g : List α) (hg : g.length = n * n) :
    (∀ r, r < size →
      (contribution (scatterSlice g n size r) n size r).length
        = interiorLen n size) ∧
    gathered g n size = g := by
  obtain ⟨q, hq⟩ := hd
  rcases Nat.eq_zero_or_pos q with hq0 | hqpos
  · have hn0 : n = 0 := by rw [hq, hq0, Nat.mul_zero]
    subst hn0
    have hg0 : g = [] := by
      apply List.length_eq_zero.mp
      rw [hg]
    subst hg0
    constructor
    · intro r hr
      unfold contribution scatterSlice interiorLen
      by_cases h0 : r = 0 <;> by_cases hl : r = size - 1 <;>
        simp [h0, hl]
    · unfold gathered
      rw [List.flatMap_eq_nil_iff.mpr]
      intro x hx
      unfold contribution scatterSlice
      by_cases h0 : x = 0 <;> by_cases hl : x = size - 1 <;>
        simp [h0, hl]
  · have hlen : interiorLen n size = q * n :=
      interiorLen_eq n size q (by omega) hq
    have hglen : g.length = size * (q * n) := by rw [hg, hq]; ring
    have hkey : ∀ r ∈ List.range size,
        contribution (scatterSlice g n size r) n size r
          = (g.drop (r * (q * n))).take (q * n) := by
      intro r hr
      exact contribution_eq n size q r hs hq hqpos (List.mem_range.mp hr) g hg
    constructor
    · intro r hr
      rw [hkey r (List.mem_range.mpr hr), hlen]
      rw [List.length_take, List.length_drop, hglen]
      have h1 : (r + 1) * (q * n) ≤ size * (q * n) :=
        Nat.mul_le_mul_right _ (by omega)
      rw [Nat.succ_mul] at h1
      omega
    · unfold gathered
      rw [flatMap_congr_mem _ _ _ hkey]
      exact flatMap_range_chunks (q * n) size g hglen

/-- Witness for gather_exact_of_dvd: n = 4, size = 2, grid 0..15. -/
theorem gather_exact_of_dvd_witness :
    (∀ r, r < 2 →
      (contribution (scatterSlice (List.range 16) 4 2 r) 4 2 r).length
        = interiorLen 4 2) ∧
    gathered (List.range 16) 4 2 = List.range 16 :=
  gather_exact_of_dvd 4 2 (by decide) ⟨2, rfl⟩ (List.range 16) (by decide)

/-- C3 counterexample: the code cannot run the claimed 9 x 3 scenario —
its partition (expected_size, line 215) uses the column count n for the
row count as well, so n = 3 forces a 3 x 3 grid.  With n = 3 and
size = 3 the buffers are 6, 9, 6 elements (one interior row plus halos),
not the claimed 12, 15, 12; the gathered grid has 9 elements = 3 rows,
not 9 rows; and the persisted file name carries row count 3, not 9. -/
theorem end_to_end_9x3_cex :
    expected_size 3 3 0 = 6 ∧ expected_size 3 3 0 ≠ 3 * 3 + 3 ∧
    expected_size 3 3 1 = 9 ∧ expected_size 3 3 1 ≠ 3 * 3 + 2 * 3 ∧
    (gathered (List.range 9) 3 3).length = 9 ∧
    (gathered (List.range 9) 3 3).length / 3 = 3 ∧
    (gathered (List.range 9) 3 3).length / 3 ≠ 9 ∧
    mpiFilename 3 ((gathered (List.range 9) 3 3).length / 3)
      = "vtk_files/approx_sol-3-3.vtk" := by
  decide

/-- C3 amended: the code supports only square grids, so the scenario is
the 3 x 3 grid (n = 3), size = 3, with a tolerance every rank's first
sweep already satisfies.  The loop then performs exactly one update
sweep per rank and exits with iteration counter 1; the local buffers
hold 1*3 + 3 elements (ranks 0 and 2) and 1*3 + 2*3 elements (rank 1);
the gathered grid round-trips with row count 3; and the persisted file
name contains worker count 3 and row count 3. -/
theorem end_to_end_3x3 :
    expected_size 3 3 0 = 1 * 3 + 3 ∧ expected_size 3 3 2 = 1 * 3 + 3 ∧
    expected_size 3 3 1 = 1 * 3 + 2 * 3 ∧
    gathered (List.range 9) 3 3 = List.range 9 ∧
    (gathered (List.range 9) 3 3).length / 3 = 3 ∧
    mpiFilename 3 3 = "vtk_files/approx_sol-3-3.vtk" ∧
    (mpiGo 3 100 (fun _ _ => true) (fun _ _ m => m) (fun _ ks r => ks r) 2
        (mpiInit (fun _ => (0 : Nat)))).done = true ∧
    (mpiGo 3 100 (fun _ _ => true) (fun _ _ m => m) (fun _ ks r => ks r) 2
        (mpiInit (fun _ => (0 : Nat)))).i = 1 ∧
    ∀ r, r < 3 → (mpiGo 3 100 (fun _ _ => true) (fun _ _ m => m)
        (fun _ ks r => ks r) 2 (mpiInit (fun _ => (0 : Nat)))).updates r = 1 := by
  decide

/-- Whatever the error oracle, the loop of the sequential / parallel
solvers exits: the disjunct i = n_max - 1 fires at the latest by the
round with that counter value, and each round costs one sweep. -/
theorem relaxGo_exits (nMax : Nat) (err : Nat → Bool) (rows : Nat) :
    ∀ fuel i sweeps, 1 ≤ i → i ≤ nMax - 1 → nMax - 1 < i + fuel →
      (relaxGo nMax err rows fuel i sweeps).exited = true ∧
      (relaxGo nMax err rows fuel i sweeps).sweeps ≤ sweeps + (nMax - i) := by
  intro fuel
  induction fuel with
  | zero =>
      intro i sweeps h1 h2 h3
      exfalso
      omega
  | succ fuel ih =>
      intro i sweeps h1 h2 h3
      simp only [relaxGo]
      by_cases hx : (err i || decide (i = nMax - 1)) = true
      · rw [if_pos hx]
        refine ⟨rfl, ?_⟩
        show sweeps + 1 ≤ sweeps + (nMax - i)
        omega
      · rw [if_neg hx]
        have hne : i ≠ nMax - 1 := by
          intro h
          apply hx
          simp [h]
        obtain ⟨hA, hB⟩ := ih (i + 1) (sweeps + 1) (by omega) (by omega) (by omega)
        exact ⟨hA, by omega⟩

/-- With an error oracle that never drops below tolerance, the loop runs
the rounds i = start .. n_max - 1 and exits at the cap, emitting exactly
the Iter line for counter n_max - 1 followed by the file write. -/
theorem relaxGo_never_conv (nMax rows : Nat) :
    ∀ fuel i sweeps, 1 ≤ i → i ≤ nMax - 1 → nMax - 1 < i + fuel →
      relaxGo nMax (fun _ => false) rows fuel i sweeps
        = ⟨sweeps + (nMax - i), nMax - 1,
            [Event.iterReport (nMax - 1), Event.persist (seqFilename rows)],
            true⟩ := by
  intro fuel
  induction fuel with
  | zero =>
      intro i sweeps h1 h2 h3
      exfalso
      omega
  | succ fuel ih =>
      intro i sweeps h1 h2 h3
      simp only [relaxGo]
      by_cases hx : i = nMax - 1
      · subst hx
        rw [if_pos (by simp)]
        have he : nMax - (nMax - 1) = 1 := by omega
        rw [he]
      · rw [if_neg (by simp [hx])]
        rw [ih (i + 1) (sweeps + 1) (by omega) (by omega) (by omega)]
        have he : sweeps + 1 + (nMax - (i + 1)) = sweeps + (nMax - i) := by omega
        rw [he]

/-- C8 counterexample: a run that hits the iteration cap (n_max = 3 and
the error never below tolerance, so the exit comes from i = n_max - 1)
produces exactly the same outputs as a run that genuinely converges
(n_max = 5, error below tolerance from round 2 on, exiting well before
its cap round 4): the output carries no note that the cap was hit,
refuting that part of the claim. -/
theorem cap_note_absent_cex :
    relaxRun 3 (fun _ => false) 9 = relaxRun 5 (fun i => decide (2 ≤ i)) 9 ∧
    (relaxRun 3 (fun _ => false) 9).lastIter = 3 - 1 ∧
    (relaxRun 5 (fun i => decide (2 ≤ i)) 9).lastIter ≠ 5 - 1 := by
  refine ⟨by decide, by decide, by decide⟩

/-- C8 amended: when the residual never drops below tolerance the loop
still terminates through the normal exit path at the cap round
n_max - 1, prints the usual Iter line for that round, and persists the
result file; the output reports the iteration count but contains no
distinct cap-hit note (no such output exists in the source). -/
theorem cap_hit_normal_exit (nMax rows : Nat) (hn : 2 ≤ nMax) :
    (relaxRun nMax (fun _ => false) rows).exited = true ∧
    (relaxRun nMax (fun _ => false) rows).events
      = [Event.iterReport (nMax - 1), Event.persist (seqFilename rows)] := by
  unfold relaxRun
  rw [relaxGo_never_conv nMax rows nMax 1 0 (by omega) (by omega) (by omega)]
  exact ⟨rfl, rfl⟩

/-- Witness for cap_hit_normal_exit at n_max = 3, rows = 9. -/
theorem cap_hit_normal_exit_witness :
    (relaxRun 3 (fun _ => false) 9).exited = true ∧
    (relaxRun 3 (fun _ => false) 9).events
      = [Event.iterReport (3 - 1), Event.persist (seqFilename 9)] :=
  cap_hit_normal_exit 3 9 (by decide)

/-- If the all-reduce of a round says continue, some rank's new
exit_local is unset, and then the shared counter had not reached
n_max - 1 in that round. -/
theorem roundDone_false_counter {α : Type} (size nMax : Nat)
    (err : Nat → Nat → Bool) (s : MpiState α)
    (h : roundDone size nMax err s = false) : s.i ≠ nMax - 1 := by
  rw [roundDone, List.all_eq_false] at h
  obtain ⟨r, hrmem, hrp⟩ := h
  rw [nextExitLocal] at hrp
  intro hcontra
  apply hrp
  by_cases hEL : s.exitLocal r
  · simp [hEL]
  · simp [hEL, hcontra]

/-- One round preserves the loop invariant. -/
theorem mpiRound_inv {α : Type} (size nMax : Nat) (err : Nat → Nat → Bool)
    (upd : Nat → Nat → α → α) (ex : Nat → (Nat → α) → Nat → α)
    (s : MpiState α) (hd : s.done = false) (hinv : MpiInv nMax s) :
    MpiInv nMax (mpiRound size nMax err upd ex s) := by
  obtain ⟨hi, hu⟩ := hinv
  have hu' : ∀ r, s.updates r < s.i := by
    intro r
    have h := hu r
    rw [hd] at h
    simpa using h
  constructor
  · show (if roundDone size nMax err s then s.i else s.i + 1) ≤ nMax - 1
    by_cases hg : roundDone size nMax err s = true
    · rw [if_pos hg]
      exact hi
    · have hgf : roundDone size nMax err s = false := by
        simpa using hg
      rw [hgf]
      have := roundDone_false_counter size nMax err s hgf
      simp only [Bool.false_eq_true, if_false]
      omega
  · intro r
    show if roundDone size nMax err s = true
        then (if s.exitLocal r then s.updates r else s.updates r + 1)
          ≤ (if roundDone size nMax err s then s.i else s.i + 1)
        else (if s.exitLocal r then s.updates r else s.updates r + 1)
          < (if roundDone size nMax err s then s.i else s.i + 1)
    by_cases hg : roundDone size nMax err s = true
    · rw [if_pos hg, if_pos hg]
      have := hu' r
      by_cases hEL : s.exitLocal r <;> simp [hEL] <;> omega
    · have hgf : roundDone size nMax err s = false := by simpa using hg
      rw [if_neg hg, hgf]
      simp only [Bool.false_eq_true, if_false]
      have := hu' r
      by_cases hEL : s.exitLocal r <;> simp [hEL] <;> omega

/-- If a round does not end the loop, the shared counter advances. -/
theorem mpiRound_i_of_not_done {α : Type} (size nMax : Nat)
    (err : Nat → Nat → Bool) (upd : Nat → Nat → α → α)
    (ex : Nat → (Nat → α) → Nat → α) (s : MpiState α)
    (h : (mpiRound size nMax err upd ex s).done = false) :
    (mpiRound size nMax err upd ex s).i = s.i + 1 := by
  have hg : roundDone size nMax err s = false := h
  show (if roundDone size nMax err s then s.i else s.i + 1) = s.i + 1
  rw [hg]
  simp

/-- With fuel taking the counter past n_max - 1, the loop reaches the
global done flag, preserving the invariant. -/
theorem mpiGo_reaches_done {α : Type} (size nMax : Nat)
    (err : Nat → Nat → Bool) (upd : Nat → Nat → α → α)
    (ex : Nat → (Nat → α) → Nat → α) :
    ∀ fuel (s : MpiState α), MpiInv nMax s →
      (s.done = true ∨ nMax - 1 < s.i + fuel) →
      (mpiGo size nMax err upd ex fuel s).done = true ∧
      MpiInv nMax (mpiGo size nMax err upd ex fuel s) := by
  intro fuel
  induction fuel with
  | zero =>
      intro s hinv hdisj
      simp only [mpiGo]
      rcases hdisj with hd | hlt
      · exact ⟨hd, hinv⟩
      · exfalso
        have := hinv.1
        omega
  | succ fuel ih =>
      intro s hinv hdisj
      by_cases hd : s.done = true
      · simp only [mpiGo]
        rw [if_pos hd]
        exact ⟨hd, hinv⟩
      · have hdf : s.done = false := by simpa using hd
        simp only [mpiGo]
        rw [if_neg hd]
        apply ih
        · exact mpiRound_inv size nMax err upd ex s hdf hinv
        · by_cases hg : (mpiRound size nMax err upd ex s).done = true
          · exact Or.inl hg
          · right
            have hgf : (mpiRound size nMax err upd ex s).done = false := by
              simpa using hg
            rw [mpiRound_i_of_not_done size nMax err upd ex s hgf]
            rcases hdisj with hd2 | hlt
            · exact absurd hd2 hd
            · omega

/-- C9: for every error oracle and initial grid, each solver loop
terminates within fuel n_max — the sequential and the thread-parallel
loop (same loop, different kernel call, hence two oracles) exit with at
most n_max - 1 sweeps, and the distributed loop reaches the global done
flag with every rank having swept at most n_max - 1 times — because the
exit disjunct i = n_max - 1 fires no later than the round with that
counter value.  The counter starts at 1, so the claim presupposes a cap
of at least 2 (the cap constant lives in the conditions header outside
the sources and is a parameter here). -/
theorem loops_terminate_within_cap {α : Type} (nMax size rows : Nat)
    (hn : 2 ≤ nMax) (errS errP : Nat → Bool) (errM : Nat → Nat → Bool)
    (upd : Nat → Nat → α → α) (ex : Nat → (Nat → α) → Nat → α)
    (m0 : Nat → α) :
    ((relaxRun nMax errS rows).exited = true ∧
      (relaxRun nMax errS rows).sweeps ≤ nMax - 1) ∧
    ((relaxRun nMax errP rows).exited = true ∧
      (relaxRun nMax errP rows).sweeps ≤ nMax - 1) ∧
    ((mpiGo size nMax errM upd ex nMax (mpiInit m0)).done = true ∧
      ∀ r, r < size →
        (mpiGo size nMax errM upd ex nMax (mpiInit m0)).updates r
          ≤ nMax - 1) := by
  unfold relaxRun
  have hseq := relaxGo_exits nMax errS rows nMax 1 0 (by omega) (by omega) (by omega)
  have hpar := relaxGo_exits nMax errP rows nMax 1 0 (by omega) (by omega) (by omega)
  have hinvInit : MpiInv nMax (mpiInit m0 : MpiState α) := by
    constructor
    · show 1 ≤ nMax - 1
      omega
    · intro r
      show if (false = true) then (0 ≤ 1) else (0 < 1)
      simp
  have hstep : nMax - 1 < (mpiInit m0 : MpiState α).i + nMax := by
    show nMax - 1 < 1 + nMax
    omega
  obtain ⟨hdone, hinv⟩ := mpiGo_reaches_done size nMax errM upd ex nMax
    (mpiInit m0) hinvInit (Or.inr hstep)
  refine ⟨⟨hseq.1, by have := hseq.2; omega⟩,
    ⟨hpar.1, by have := hpar.2; omega⟩, hdone, ?_⟩
  intro r hr
  have h2 := hinv.2 r
  rw [hdone] at h2
  simp only [if_true] at h2
  have h1 := hinv.1
  omega

/-- Witness for loops_terminate_within_cap: n_max = 2, size = 2, trivial
oracles on Nat meshes. -/
theorem loops_terminate_within_cap_witness :
    ((relaxRun 2 (fun _ => false) 3).exited = true ∧
      (relaxRun 2 (fun _ => false) 3).sweeps ≤ 2 - 1) ∧
    ((relaxRun 2 (fun _ => true) 3).exited = true ∧
      (relaxRun 2 (fun _ => true) 3).sweeps ≤ 2 - 1) ∧
    ((mpiGo 2 2 (fun _ _ => false) (fun _ _ m => m + 1) (fun _ ks r => ks r)
        2 (mpiInit (fun _ => (0 : Nat)))).done = true ∧
      ∀ r, r < 2 →
        (mpiGo 2 2 (fun _ _ => false) (fun _ _ m => m + 1)
          (fun _ ks r => ks r) 2 (mpiInit (fun _ => (0 : Nat)))).updates r
            ≤ 2 - 1) :=
  loops_terminate_within_cap 2 2 3 (by decide) (fun _ => false)
    (fun _ => true) (fun _ _ => false) (fun _ _ m => m + 1)
    (fun _ ks r => ks r) (fun _ => 0)

/-- A set exit_local flag survives a round. -/
theorem mpiRound_exitLocal_mono {α : Type} (size nMax : Nat)
    (err : Nat → Nat → Bool) (upd : Nat → Nat → α → α)
    (ex : Nat → (Nat → α) → Nat → α) (s : MpiState α) (r : Nat)
    (h : s.exitLocal r = true) :
    (mpiRound size nMax err upd ex s).exitLocal r = true := by
  show nextExitLocal nMax err s r = true
  rw [nextExitLocal]
  simp [h]

/-- A rank whose exit_local flag is set performs no sweep this round. -/
theorem mpiRound_updates_frozen {α : Type} (size nMax : Nat)
    (err : Nat → Nat → Bool) (upd : Nat → Nat → α → α)
    (ex : Nat → (Nat → α) → Nat → α) (s : MpiState α) (r : Nat)
    (h : s.exitLocal r = true) :
    (mpiRound size nMax err upd ex s).updates r = s.updates r := by
  show (if s.exitLocal r then s.updates r else s.updates r + 1) = s.updates r
  simp [h]

/-- C5: from any state in which rank r's exit_local flag is set, however
much further the loop runs, that rank performs no further update sweeps
(its update count is frozen and its flag stays set), yet every executed
round still performs both the all-reduce and the halo exchange: the two
counters advance in lock step, and while the global done flag has not
been observed no round is skipped (fuel many body executions perform
fuel many all-reduces). -/
theorem done_rank_keeps_communicating {α : Type} (size nMax : Nat)
    (err : Nat → Nat → Bool) (upd : Nat → Nat → α → α)
    (ex : Nat → (Nat → α) → Nat → α) :
    ∀ fuel (s : MpiState α) r, s.exitLocal r = true →
      (mpiGo size nMax err upd ex fuel s).updates r = s.updates r ∧
      (mpiGo size nMax err upd ex fuel s).exitLocal r = true ∧
      (mpiGo size nMax err upd ex fuel s).exchanges + s.reduces
        = (mpiGo size nMax err upd ex fuel s).reduces + s.exchanges ∧
      ((mpiGo size nMax err upd ex fuel s).done = false →
        (mpiGo size nMax err upd ex fuel s).reduces = s.reduces + fuel) := by
  intro fuel
  induction fuel with
  | zero =>
      intro s r h
      show s.updates r = s.updates r ∧ s.exitLocal r = true ∧
        s.exchanges + s.reduces = s.reduces + s.exchanges ∧
        (s.done = false → s.reduces = s.reduces + 0)
      exact ⟨rfl, h, by omega, fun _ => rfl⟩
  | succ fuel ih =>
      intro s r h
      by_cases hd : s.done = true
      · simp only [mpiGo]
        rw [if_pos hd]
        refine ⟨rfl, h, by omega, ?_⟩
        intro hf
        exact absurd hd (by simp [hf])
      · simp only [mpiGo]
        rw [if_neg hd]
        obtain ⟨h1, h2, h3, h4⟩ := ih (mpiRound size nMax err upd ex s) r
          (mpiRound_exitLocal_mono size nMax err upd ex s r h)
        have hre : (mpiRound size nMax err upd ex s).reduces = s.reduces + 1 := rfl
        have hexc : (mpiRound size nMax err upd ex s).exchanges = s.exchanges + 1 := rfl
        refine ⟨?_, h2, by omega, ?_⟩
        · rw [h1, mpiRound_updates_frozen size nMax err upd ex s r h]
        · intro hf
          have := h4 hf
          omega

/-- Witness for done_rank_keeps_communicating: two more rounds from the
concrete state c5state in which rank 0 is locally done. -/
theorem done_rank_keeps_communicating_witness :
    (mpiGo 2 3 (fun _ _ => false) (fun _ _ m => m + 1) (fun _ ks r => ks r)
        2 c5state).updates 0 = c5state.updates 0 ∧
    (mpiGo 2 3 (fun _ _ => false) (fun _ _ m => m + 1) (fun _ ks r => ks r)
        2 c5state).exitLocal 0 = true ∧
    (mpiGo 2 3 (fun _ _ => false) (fun _ _ m => m + 1) (fun _ ks r => ks r)
        2 c5state).exchanges + c5state.reduces
      = (mpiGo 2 3 (fun _ _ => false) (fun _ _ m => m + 1) (fun _ ks r => ks r)
        2 c5state).reduces + c5state.exchanges ∧
    ((mpiGo 2 3 (fun _ _ => false) (fun _ _ m => m + 1) (fun _ ks r => ks r)
        2 c5state).done = false →
      (mpiGo 2 3 (fun _ _ => false) (fun _ _ m => m + 1) (fun _ ks r => ks r)
        2 c5state).reduces = c5state.reduces + 2) :=
  done_rank_keeps_communicating 2 3 (fun _ _ => false) (fun _ _ m => m + 1)
    (fun _ ks r => ks r) 2 c5state 0 (by decide)

/-- One round preserves control equality, whatever the kernels and
exchange oracles: the controls never read the mesh buffers. -/
theorem mpiRound_ctrl {α β : Type} (size nMax : Nat) (err : Nat → Nat → Bool)
    (upd1 : Nat → Nat → α → α) (ex1 : Nat → (Nat → α) → Nat → α)
    (upd2 : Nat → Nat → β → β) (ex2 : Nat → (Nat → β) → Nat → β)
    (s1 : MpiState α) (s2 : MpiState β) (h : CtrlEq s1 s2) :
    CtrlEq (mpiRound size nMax err upd1 ex1 s1)
      (mpiRound size nMax err upd2 ex2 s2) := by
  obtain ⟨hi, hel, hup, hred, hexc, hset, hdone⟩ := h
  have hnel : nextExitLocal nMax err s1 = nextExitLocal nMax err s2 := by
    funext r
    rw [nextExitLocal, nextExitLocal, hel, hi]
  have hrd : roundDone size nMax err s1 = roundDone size nMax err s2 := by
    rw [roundDone, roundDone, hnel]
  refine ⟨?_, hnel, ?_, ?_, ?_, ?_, hrd⟩
  · show (if roundDone size nMax err s1 then s1.i else s1.i + 1)
      = (if roundDone size nMax err s2 then s2.i else s2.i + 1)
    rw [hrd, hi]
  · show (fun r => if s1.exitLocal r then s1.updates r else s1.updates r + 1)
      = (fun r => if s2.exitLocal r then s2.updates r else s2.updates r + 1)
    rw [hel, hup]
  · show s1.reduces + 1 = s2.reduces + 1
    rw [hred]
  · show s1.exchanges + 1 = s2.exchanges + 1
    rw [hexc]
  · show (if roundDone size nMax err s1 then s1.setMeshes else s1.setMeshes + 1)
      = (if roundDone size nMax err s2 then s2.setMeshes else s2.setMeshes + 1)
    rw [hrd, hset]

/-- A loop that already observed the global done flag does nothing. -/
theorem mpiGo_frozen {α : Type} (size nMax : Nat) (err : Nat → Nat → Bool)
    (upd : Nat → Nat → α → α) (ex : Nat → (Nat → α) → Nat → α) :
    ∀ fuel (s : MpiState α), s.done = true →
      mpiGo size nMax err upd ex fuel s = s := by
  intro fuel
  induction fuel with
  | zero => intro s _; rfl
  | succ fuel ih =>
      intro s h
      simp only [mpiGo]
      rw [if_pos h]

/-- The all-reduce and exchange counters advance in lock step. -/
theorem mpiGo_counters {α : Type} (size nMax : Nat) (err : Nat → Nat → Bool)
    (upd : Nat → Nat → α → α) (ex : Nat → (Nat → α) → Nat → α) :
    ∀ fuel (s : MpiState α),
      (mpiGo size nMax err upd ex fuel s).exchanges + s.reduces
        = (mpiGo size nMax err upd ex fuel s).reduces + s.exchanges := by
  intro fuel
  induction fuel with
  | zero =>
      intro s
      show s.exchanges + s.reduces = s.reduces + s.exchanges
      omega
  | succ fuel ih =>
      intro s
      simp only [mpiGo]
      by_cases hd : s.done = true
      · rw [if_pos hd]
        omega
      · rw [if_neg hd]
        have h := ih (mpiRound size nMax err upd ex s)
        have h1 : (mpiRound size nMax err upd ex s).reduces = s.reduces + 1 := rfl
        have h2 : (mpiRound size nMax err upd ex s).exchanges = s.exchanges + 1 := rfl
        omega

/-- In a run that starts unfinished and reaches the global done flag,
set_mesh is performed in every round except the last one. -/
theorem mpiGo_setMeshes_skip {α : Type} (size nMax : Nat)
    (err : Nat → Nat → Bool) (upd : Nat → Nat → α → α)
    (ex : Nat → (Nat → α) → Nat → α) :
    ∀ fuel (s : MpiState α), s.done = false →
      (mpiGo size nMax err upd ex fuel s).done = true →
      (mpiGo size nMax err upd ex fuel s).setMeshes + s.reduces + 1
        = (mpiGo size nMax err upd ex fuel s).reduces + s.setMeshes := by
  intro fuel
  induction fuel with
  | zero =>
      intro s hdf hdt
      exfalso
      have h : s.done = true := hdt
      rw [hdf] at h
      exact Bool.false_ne_true h
  | succ fuel ih =>
      intro s hdf hdt
      have hne : ¬ s.done = true := by rw [hdf]; exact Bool.false_ne_true
      simp only [mpiGo] at hdt ⊢
      rw [if_neg hne] at hdt ⊢
      have h1 : (mpiRound size nMax err upd ex s).reduces = s.reduces + 1 := rfl
      by_cases hg : (mpiRound size nMax err upd ex s).done = true
      · rw [mpiGo_frozen size nMax err upd ex fuel _ hg]
        have hset : (mpiRound size nMax err upd ex s).setMeshes = s.setMeshes := by
          have hgr : roundDone size nMax err s = true := hg
          show (if roundDone size nMax err s then s.setMeshes else s.setMeshes + 1)
            = s.setMeshes
          rw [hgr]
          simp
        omega
      · have hgf : (mpiRound size nMax err upd ex s).done = false := by simpa using hg
        have h := ih (mpiRound size nMax err upd ex s) hgf hdt
        have hset : (mpiRound size nMax err upd ex s).setMeshes = s.setMeshes + 1 := by
          have hgr : roundDone size nMax err s = false := hgf
          show (if roundDone size nMax err s then s.setMeshes else s.setMeshes + 1)
            = s.setMeshes + 1
          rw [hgr]
          simp
        omega

/-- The all-reduce counter never decreases along the loop. -/
theorem mpiGo_reduces_mono {α : Type} (size nMax : Nat)
    (err : Nat → Nat → Bool) (upd : Nat → Nat → α → α)
    (ex : Nat → (Nat → α) → Nat → α) :
    ∀ fuel (s : MpiState α),
      s.reduces ≤ (mpiGo size nMax err upd ex fuel s).reduces := by
  intro fuel
  induction fuel with
  | zero => intro s; exact Nat.le_refl _
  | succ fuel ih =>
      intro s
      simp only [mpiGo]
      by_cases hd : s.done = true
      · rw [if_pos hd]
      · rw [if_neg hd]
        have h1 := ih (mpiRound size nMax err upd ex s)
        have h2 : (mpiRound size nMax err upd ex s).reduces = s.reduces + 1 := rfl
        omega

/-- An unfinished loop that reaches the done flag runs at least one more
round, so its final all-reduce count strictly exceeds the current one. -/
theorem mpiGo_reduces_strict {α : Type} (size nMax : Nat)
    (err : Nat → Nat → Bool) (upd : Nat → Nat → α → α)
    (ex : Nat → (Nat → α) → Nat → α) :
    ∀ fuel (s : MpiState α), s.done = false →
      (mpiGo size nMax err upd ex fuel s).done = true →
      s.reduces < (mpiGo size nMax err upd ex fuel s).reduces := by
  intro fuel s hdf hdt
  cases fuel with
  | zero =>
      exfalso
      have h : s.done = true := hdt
      rw [hdf] at h
      exact Bool.false_ne_true h
  | succ fuel =>
      have hne : ¬ s.done = true := by rw [hdf]; exact Bool.false_ne_true
      have hun : mpiGo size nMax err upd ex (fuel + 1) s
          = mpiGo size nMax err upd ex fuel (mpiRound size nMax err upd ex s) := by
        simp only [mpiGo]
        rw [if_neg hne]
      rw [hun]
      have h1 := mpiGo_reduces_mono size nMax err upd ex fuel
        (mpiRound size nMax err upd ex s)
      have h2 : (mpiRound size nMax err upd ex s).reduces = s.reduces + 1 := rfl
      omega

/-- Two runs over the same kernel oracles whose exchange oracles agree on
every non-final round end with the same kernel meshes: the final round's
exchange result is never written back into the kernel. -/
theorem mpiGo_kernel_eq {α : Type} (size nMax : Nat) (err : Nat → Nat → Bool)
    (upd : Nat → Nat → α → α) (ex1 ex2 : Nat → (Nat → α) → Nat → α) :
    ∀ fuel (s1 s2 : MpiState α), CtrlEq s1 s2 →
      s1.kernelMesh = s2.kernelMesh →
      (mpiGo size nMax err upd ex1 fuel s1).done = true →
      (∀ t, s1.reduces ≤ t →
        t + 1 < (mpiGo size nMax err upd ex1 fuel s1).reduces → ex1 t = ex2 t) →
      (mpiGo size nMax err upd ex2 fuel s2).kernelMesh
        = (mpiGo size nMax err upd ex1 fuel s1).kernelMesh := by
  intro fuel
  induction fuel with
  | zero =>
      intro s1 s2 hc hk hdone hex
      exact hk.symm
  | succ fuel ih =>
      intro s1 s2 hc hk hdone hex
      obtain ⟨hi, hel, hup, hred, hexc, hset, hdone2⟩ := hc
      by_cases hd : s1.done = true
      · have hd2 : s2.done = true := by rw [← hdone2]; exact hd
        simp only [mpiGo]
        rw [if_pos hd, if_pos hd2]
        exact hk.symm
      · have hd2 : ¬ s2.done = true := by rw [← hdone2]; exact hd
        have hun1 : mpiGo size nMax err upd ex1 (fuel + 1) s1
            = mpiGo size nMax err upd ex1 fuel (mpiRound size nMax err upd ex1 s1) := by
          simp only [mpiGo]
          rw [if_neg hd]
        have hun2 : mpiGo size nMax err upd ex2 (fuel + 1) s2
            = mpiGo size nMax err upd ex2 fuel (mpiRound size nMax err upd ex2 s2) := by
          simp only [mpiGo]
          rw [if_neg hd2]
        rw [hun1] at hdone hex ⊢
        rw [hun2]
        have hcr : CtrlEq (mpiRound size nMax err upd ex1 s1)
            (mpiRound size nMax err upd ex2 s2) :=
          mpiRound_ctrl size nMax err upd ex1 upd ex2 s1 s2
            ⟨hi, hel, hup, hred, hexc, hset, hdone2⟩
        have hsw : sweptMesh upd s1 = sweptMesh upd s2 := by
          funext r
          rw [sweptMesh, sweptMesh, hel, hi, hk]
        have hnel : nextExitLocal nMax err s1 = nextExitLocal nMax err s2 := by
          funext r
          rw [nextExitLocal, nextExitLocal, hel, hi]
        have hrd : roundDone size nMax err s1 = roundDone size nMax err s2 := by
          rw [roundDone, roundDone, hnel]
        have hkr : (mpiRound size nMax err upd ex1 s1).kernelMesh
            = (mpiRound size nMax err upd ex2 s2).kernelMesh := by
          funext r
          show (if roundDone size nMax err s1 then sweptMesh upd s1 r
              else ex1 s1.reduces (sweptMesh upd s1) r)
            = (if roundDone size nMax err s2 then sweptMesh upd s2 r
              else ex2 s2.reduces (sweptMesh upd s2) r)
          rw [← hrd, ← hred, ← hsw]
          by_cases hg : roundDone size nMax err s1 = true
          · rw [hg]
            simp
          · have hgf : roundDone size nMax err s1 = false := by simpa using hg
            rw [hgf]
            simp only [Bool.false_eq_true, if_false]
            have hgf1 : (mpiRound size nMax err upd ex1 s1).done = false := hgf
            have hstrict := mpiGo_reduces_strict size nMax err upd ex1 fuel
              (mpiRound size nMax err upd ex1 s1) hgf1 hdone
            have h2 : (mpiRound size nMax err upd ex1 s1).reduces
                = s1.reduces + 1 := rfl
            have hexeq : ex1 s1.reduces = ex2 s1.reduces :=
              hex s1.reduces (Nat.le_refl _) (by omega)
            rw [hexeq]
        apply ih (mpiRound size nMax err upd ex1 s1)
          (mpiRound size nMax err upd ex2 s2) hcr hkr hdone
        intro t ht hlt
        have h2 : (mpiRound size nMax err upd ex1 s1).reduces = s1.reduces + 1 := rfl
        exact hex t (by omega) hlt

/-- C10: in a completed distributed run, the halo exchange still runs in
the final (global-done) round — the exchange count equals the all-reduce
count — while set_mesh is skipped exactly there (one fewer set_mesh than
rounds), and the buffer handed to the final gather is re-copied from the
kernel: replacing the exchange oracle with any ex2 that agrees with ex1
on all rounds but the last leaves every rank's gather input unchanged,
so the last round's exchanged halo values have no effect on the
gathered, persisted result. -/
theorem final_round_exchange_no_effect {α : Type} (size nMax fuel : Nat)
    (err : Nat → Nat → Bool) (upd : Nat → Nat → α → α)
    (ex1 ex2 : Nat → (Nat → α) → Nat → α) (m0 : Nat → α)
    (hdone : (mpiGo size nMax err upd ex1 fuel (mpiInit m0)).done = true)
    (hagree : ∀ t,
      t + 1 < (mpiGo size nMax err upd ex1 fuel (mpiInit m0)).reduces →
      ex1 t = ex2 t) :
    (mpiGo size nMax err upd ex1 fuel (mpiInit m0)).exchanges
      = (mpiGo size nMax err upd ex1 fuel (mpiInit m0)).reduces ∧
    (mpiGo size nMax err upd ex1 fuel (mpiInit m0)).setMeshes + 1
      = (mpiGo size nMax err upd ex1 fuel (mpiInit m0)).reduces ∧
    ∀ r, r < size →
      gatherInput (mpiGo size nMax err upd ex2 fuel (mpiInit m0)) r
        = gatherInput (mpiGo size nMax err upd ex1 fuel (mpiInit m0)) r := by
  have hz1 : (mpiInit m0 : MpiState α).reduces = 0 := rfl
  have hz2 : (mpiInit m0 : MpiState α).exchanges = 0 := rfl
  have hz3 : (mpiInit m0 : MpiState α).setMeshes = 0 := rfl
  have hz4 : (mpiInit m0 : MpiState α).done = false := rfl
  refine ⟨?_, ?_, ?_⟩
  · have h := mpiGo_counters size nMax err upd ex1 fuel (mpiInit m0)
    omega
  · have h := mpiGo_setMeshes_skip size nMax err upd ex1 fuel (mpiInit m0)
      hz4 hdone
    omega
  · intro r _
    have h := mpiGo_kernel_eq size nMax err upd ex1 ex2 fuel (mpiInit m0)
      (mpiInit m0) ⟨rfl, rfl, rfl, rfl, rfl, rfl, rfl⟩ rfl hdone
      (fun t _ hlt => hagree t hlt)
    show (mpiGo size nMax err upd ex2 fuel (mpiInit m0)).kernelMesh r
      = (mpiGo size nMax err upd ex1 fuel (mpiInit m0)).kernelMesh r
    rw [h]

/-- Witness for final_round_exchange_no_effect: one round at size = 1
with an immediately satisfied tolerance; the two exchange oracles differ
everywhere, in particular in the single (final) round. -/
theorem final_round_exchange_no_effect_witness :
    (mpiGo 1 2 (fun _ _ => true) (fun _ _ m => m + 1)
        (fun _ ks r => ks r + 10) 1 (mpiInit (fun _ => (0 : Nat)))).exchanges
      = (mpiGo 1 2 (fun _ _ => true) (fun _ _ m => m + 1)
        (fun _ ks r => ks r + 10) 1 (mpiInit (fun _ => (0 : Nat)))).reduces ∧
    (mpiGo 1 2 (fun _ _ => true) (fun _ _ m => m + 1)
        (fun _ ks r => ks r + 10) 1 (mpiInit (fun _ => (0 : Nat)))).setMeshes + 1
      = (mpiGo 1 2 (fun _ _ => true) (fun _ _ m => m + 1)
        (fun _ ks r => ks r + 10) 1 (mpiInit (fun _ => (0 : Nat)))).reduces ∧
    ∀ r, r < 1 →
      gatherInput (mpiGo 1 2 (fun _ _ => true) (fun _ _ m => m + 1)
        (fun _ ks r => ks r + 20) 1 (mpiInit (fun _ => (0 : Nat)))) r
        = gatherInput (mpiGo 1 2 (fun _ _ => true) (fun _ _ m => m + 1)
        (fun _ ks r => ks r + 10) 1 (mpiInit (fun _ => (0 : Nat)))) r :=
  final_round_exchange_no_effect 1 2 1 (fun _ _ => true) (fun _ _ m => m + 1)
    (fun _ ks r => ks r + 10) (fun _ ks r => ks r + 20) (fun _ => 0)
    (by decide)
    (fun t ht => by
      have h1 : (mpiGo 1 2 (fun _ _ => true) (fun _ _ m => m + 1)
          (fun _ ks r => ks r + 10) 1 (mpiInit (fun _ => (0 : Nat)))).reduces
            = 1 := by decide
      rw [h1] at ht
      exact absurd ht (by omega))

end Challenge3
